import Mathlib

/-
Verification of the computational core of the Q-mlearning notebooks:
the pairwise-distance (Gram) matrix construction and the max-cut /
Ising cost formulation from
`10_Discrete_Optimization_and_Unsupervised_Learning-qiskit.ipynb`.
-/

namespace QMLearn

/-! ### Distance Matrix Builder

Source cell:
  w = np.zeros((n_instances, n_instances))
  for i, j in itertools.product(*[range(n_instances)]*2):
      w[i, j] = np.linalg.norm(data[i]-data[j])
-/

/-- Sum of squared coordinate differences of two points,
`Σ_k (x_k - y_k)^2`, the square of `np.linalg.norm(x - y)`. -/
def sqDiffSum (x y : List ℝ) : ℝ :=
  (List.zipWith (fun a b => (a - b) ^ 2) x y).sum

/-- Euclidean (L2) distance of two points: `np.linalg.norm(x - y)`. -/
noncomputable def euclid (x y : List ℝ) : ℝ :=
  Real.sqrt (sqDiffSum x y)

/-- A single store `w[i, j] = v` into a matrix held as a function. -/
def updMat (w : ℕ → ℕ → ℝ) (i j : ℕ) (v : ℝ) : ℕ → ℕ → ℝ :=
  fun a b => if a = i ∧ b = j then v else w a b

/-- The index list `itertools.product(range n, range n)` in iteration order. -/
def prodPairs (n : ℕ) : List (ℕ × ℕ) :=
  (List.range n).flatMap (fun i => (List.range n).map (fun j => (i, j)))

/-- The distance-matrix loop: start from `np.zeros((n, n))` (and zero
outside the array bounds) and store `np.linalg.norm(data[i]-data[j])`
at every index pair. -/
noncomputable def buildW (data : List (List ℝ)) : ℕ → ℕ → ℝ :=
  (prodPairs data.length).foldl
    (fun w ij => updMat w ij.1 ij.2 (euclid (data.getD ij.1 []) (data.getD ij.2 [])))
    (fun _ _ => 0)

/-- The `n × n` array of the distance matrix as a list of rows. -/
noncomputable def buildWMat (data : List (List ℝ)) : List (List ℝ) :=
  (List.range data.length).map
    (fun i => (List.range data.length).map (fun j => buildW data i j))

/-! ### Max-Cut Cost Formulator

Source cell:
  J, h = {}, {}
  for i in range(n_instances):
      h[i] = 0
      for j in range(i+1, n_instances):
          J[(i, j)] = w[i, j]
  model = dimod.BinaryQuadraticModel(h, J, 0.0, dimod.SPIN)

The formulator is stated over an arbitrary linear ordered field, standing
for the real (float64) arithmetic of the source.
-/

variable {α : Type} [LinearOrderedField α]

/-- The Ising cost model handed to `dimod.BinaryQuadraticModel`:
couplings `J` keyed by index pairs, linear biases `h` keyed by index,
and the scalar offset (the dicts are association lists in key-insertion
order; every key is inserted exactly once). -/
structure CostModel (α : Type) where
  J : List ((ℕ × ℕ) × α)
  h : List (ℕ × α)
  offset : α

/-- The inner loop `for j in range(i+1, n): J[(i, j)] = w[i, j]`,
accumulated over the outer loop `for i in range(n)`. -/
def buildJ (w : ℕ → ℕ → α) (n : ℕ) : List ((ℕ × ℕ) × α) :=
  (List.range n).flatMap
    (fun i => (List.range' (i + 1) (n - (i + 1))).map (fun j => ((i, j), w i j)))

/-- The assignments `h[i] = 0` made by the outer loop. -/
def buildH (n : ℕ) : List (ℕ × α) :=
  (List.range n).map (fun i => (i, (0 : α)))

/-- The Max-Cut Cost Formulator: `dimod.BinaryQuadraticModel(h, J, 0.0,
dimod.SPIN)` with `J` and `h` built by the loops above. -/
def maxCutModel (w : ℕ → ℕ → α) (n : ℕ) : CostModel α :=
  { J := buildJ w n, h := buildH n, offset := 0 }

/-- Modelled from the spec: the quadratic part of evaluating a CostModel,
`sum_{i<j} J[i,j] * s_i * s_j` (the spec's section 4.2; the evaluation
itself lives in the external `dimod` library, not in this repository). -/
def isingEnergy (m : CostModel α) (s : ℕ → α) : α :=
  (m.J.map (fun e => e.2 * s e.1.1 * s e.1.2)).sum

/-- Modelled from the spec: evaluating a CostModel over a SpinAssignment,
the quadratic couplings plus the linear biases `h` (identically zero in
this formulation); the offset is added separately by the caller, as in
`result['energy'] + offset`. The evaluator is the external `dimod`
energy, not code of this repository. -/
def CostModel.evaluate (m : CostModel α) (s : ℕ → α) : α :=
  isingEnergy m s + (m.h.map (fun e => e.2 * s e.1)).sum

/-- Modelled from the spec: the cut-value evaluator, `sum_{i<j} W[i][j]`
restricted to pairs where `s_i != s_j` (the literal cut weight; the
source delegates this to the external `max_cut.max_cut_value`). -/
def cut_value (w : ℕ → ℕ → α) (n : ℕ) (s : ℕ → α) : α :=
  ∑ i in Finset.range n, ∑ j in Finset.Ico (i + 1) n,
    if s i ≠ s j then w i j else 0

/-- Total edge weight of the (upper-triangular) weighted graph,
`sum_{i<j} W[i][j]`. -/
def totalWeight (w : ℕ → ℕ → α) (n : ℕ) : α :=
  ∑ i in Finset.range n, ∑ j in Finset.Ico (i + 1) n, w i j

/-- A SpinAssignment on nodes `0 .. n-1`: each spin is `+1` or `-1`. -/
def IsSpin (s : ℕ → α) (n : ℕ) : Prop :=
  ∀ i, i < n → s i = 1 ∨ s i = -1

/-- A point, read as an element of `d`-dimensional Euclidean space
(coordinates past the list's length are `0`). -/
noncomputable def toPoint (d : ℕ) (x : List ℝ) : EuclideanSpace ℝ (Fin d) :=
  fun k => x.getD k 0

/-! ### Concrete instances used to refute or instantiate claims -/

/-- The 2-node weight matrix `[[0, 1], [1, 0]]` (one unit edge). -/
def wPair : ℕ → ℕ → ℚ :=
  fun i j => if (i = 0 ∧ j = 1) ∨ (i = 1 ∧ j = 0) then 1 else 0

/-- The spin assignment `(+1, -1)`: the two nodes in opposite classes. -/
def sPair : ℕ → ℚ :=
  fun i => if i = 0 then 1 else -1

/-- A malformed 2×2 input: `[[5, 2], [3, 0]]`, neither symmetric nor
zero on the diagonal. -/
def wBad : ℕ → ℕ → ℚ :=
  fun i j =>
    if i = 0 ∧ j = 0 then 5
    else if i = 0 ∧ j = 1 then 2
    else if i = 1 ∧ j = 0 then 3
    else 0

/-! ### Basic lemmas about the embedded loops -/

lemma foldl_updMat (f : ℕ → ℕ → ℝ) (L : List (ℕ × ℕ)) (w0 : ℕ → ℕ → ℝ) (a b : ℕ) :
    (L.foldl (fun w ij => updMat w ij.1 ij.2 (f ij.1 ij.2)) w0) a b
      = if (a, b) ∈ L then f a b else w0 a b := by
  induction L generalizing w0 with
  | nil => simp
  | cons x L ih =>
    obtain ⟨i, j⟩ := x
    rw [List.foldl_cons, ih]
    by_cases hL : (a, b) ∈ L
    · simp [hL]
    · by_cases hx : a = i ∧ b = j
      · obtain ⟨h1, h2⟩ := hx
        subst h1; subst h2
        simp [hL, updMat]
      · have hne : ¬((a, b) = (i, j)) := by
          simp only [Prod.mk.injEq]; exact hx
        simp [hL, hne, updMat, hx]

lemma mem_prodPairs {n a b : ℕ} : (a, b) ∈ prodPairs n ↔ a < n ∧ b < n := by
  simp [prodPairs, Prod.ext_iff]

/-- Closed form of the distance-matrix loop: inside the `n × n` bounds the
cell holds the Euclidean distance of the two points, outside it is the
`np.zeros` background. -/
theorem buildW_apply (data : List (List ℝ)) (a b : ℕ) :
    buildW data a b
      = if a < data.length ∧ b < data.length
        then euclid (data.getD a []) (data.getD b []) else 0 := by
  have h := foldl_updMat (fun i j => euclid (data.getD i []) (data.getD j []))
    (prodPairs data.length) (fun _ _ => 0) a b
  simp only [] at h
  unfold buildW
  rw [h]
  simp only [mem_prodPairs]

lemma sqDiffSum_self (x : List ℝ) : sqDiffSum x x = 0 := by
  induction x with
  | nil => rfl
  | cons a x ih => simp_all [sqDiffSum]

lemma sqDiffSum_comm (x y : List ℝ) : sqDiffSum x y = sqDiffSum y x := by
  unfold sqDiffSum
  rw [List.zipWith_comm_of_comm]
  intro a b; ring

lemma euclid_self (x : List ℝ) : euclid x x = 0 := by
  simp [euclid, sqDiffSum_self]

lemma euclid_comm (x y : List ℝ) : euclid x y = euclid y x := by
  rw [euclid, sqDiffSum_comm, euclid]

lemma euclid_nonneg (x y : List ℝ) : 0 ≤ euclid x y :=
  Real.sqrt_nonneg _

/-! ### Sums over the loop-built association lists -/

lemma listSum_range (F : ℕ → α) (n : ℕ) :
    ((List.range n).map F).sum = ∑ i in Finset.range n, F i := by
  induction n with
  | zero => simp
  | succ n ih => rw [List.range_succ, Finset.sum_range_succ]; simp [ih]

lemma listSum_range' (F : ℕ → α) (a b : ℕ) :
    ((List.range' a b).map F).sum = ∑ j in Finset.Ico a (a + b), F j := by
  induction b generalizing a with
  | zero => simp
  | succ b ih =>
    have hab : a + (b + 1) = a + 1 + b := by omega
    rw [List.range'_succ, List.map_cons, List.sum_cons, ih (a + 1),
      Finset.sum_eq_sum_Ico_succ_bot (by omega : a < a + (b + 1)), hab]

lemma listSum_map_flatMap {β γ : Type} (L : List β) (f : β → List γ) (g : γ → α) :
    ((L.flatMap f).map g).sum = (L.map (fun x => ((f x).map g).sum)).sum := by
  induction L with
  | nil => simp
  | cons x L ih => simp [List.flatMap_cons, ih]

/-- The quadratic part of the built model, summed as a double sum over the
strict upper triangle. -/
lemma isingEnergy_maxCutModel (w : ℕ → ℕ → α) (n : ℕ) (s : ℕ → α) :
    isingEnergy (maxCutModel w n) s
      = ∑ i in Finset.range n, ∑ j in Finset.Ico (i + 1) n, w i j * s i * s j := by
  unfold isingEnergy maxCutModel buildJ
  rw [listSum_map_flatMap, listSum_range]
  refine Finset.sum_congr rfl (fun i hi => ?_)
  rw [List.map_map]
  have : ((fun e => e.2 * s e.1.1 * s e.1.2) ∘ fun j => ((i, j), w i j))
      = fun j => w i j * s i * s j := rfl
  rw [this, listSum_range' (fun j => w i j * s i * s j) (i + 1) (n - (i + 1))]
  rw [Finset.mem_range] at hi
  have hn : i + 1 + (n - (i + 1)) = n := by omega
  rw [hn]

/-- The linear biases contribute nothing: every `h[i]` is `0`. -/
lemma hSum_maxCutModel (n : ℕ) (s : ℕ → α) :
    (((maxCutModel (fun _ _ => (0 : α)) n).h).map (fun e => e.2 * s e.1)).sum = 0 := by
  unfold maxCutModel buildH
  rw [List.map_map, listSum_range]
  simp

lemma evaluate_maxCutModel (w : ℕ → ℕ → α) (n : ℕ) (s : ℕ → α) :
    CostModel.evaluate (maxCutModel w n) s
      = ∑ i in Finset.range n, ∑ j in Finset.Ico (i + 1) n, w i j * s i * s j := by
  unfold CostModel.evaluate
  rw [isingEnergy_maxCutModel]
  have hz : (((maxCutModel w n).h).map (fun e => e.2 * s e.1)).sum = 0 := by
    unfold maxCutModel buildH
    rw [List.map_map, listSum_range]
    simp
  rw [hz, add_zero]

/-- For genuine `±1` spins, the Ising quadratic form and the literal cut
weight are affinely related: `Σ w_ij s_i s_j = totalWeight - 2 * cut`. -/
lemma spin_sum_identity (w : ℕ → ℕ → α) (n : ℕ) (s : ℕ → α) (hs : IsSpin s n) :
    (∑ i in Finset.range n, ∑ j in Finset.Ico (i + 1) n, w i j * s i * s j)
      = totalWeight w n - 2 * cut_value w n s := by
  unfold totalWeight cut_value
  rw [Finset.mul_sum, ← Finset.sum_sub_distrib]
  refine Finset.sum_congr rfl (fun i hi => ?_)
  rw [Finset.mul_sum, ← Finset.sum_sub_distrib]
  refine Finset.sum_congr rfl (fun j hj => ?_)
  rw [Finset.mem_range] at hi
  rw [Finset.mem_Ico] at hj
  have hsi := hs i hi
  have hsj := hs j hj.2
  by_cases hij : s i = s j
  · have h1 : s i * s j = 1 := by
      rcases hsj with h | h <;> rw [hij, h] <;> norm_num
    rw [mul_assoc, h1, if_neg (not_not_intro hij)]
    ring
  · have h1 : s i * s j = -1 := by
      rcases hsi with h1 | h1 <;> rcases hsj with h2 | h2 <;>
        first
          | exact absurd (h1.trans h2.symm) hij
          | (rw [h1, h2]; norm_num)
    rw [mul_assoc, h1, if_pos hij]
    ring

/-! ### Bridge to Mathlib's Euclidean distance -/

lemma sqDiffSum_eq_sum_fin (d : ℕ) (x y : List ℝ)
    (hx : x.length = d) (hy : y.length = d) :
    sqDiffSum x y = ∑ k : Fin d, (x.getD k 0 - y.getD k 0) ^ 2 := by
  induction d generalizing x y with
  | zero =>
    rw [List.length_eq_zero.mp hx, List.length_eq_zero.mp hy]
    simp [sqDiffSum]
  | succ d ih =>
    cases x with
    | nil => simp at hx
    | cons a x =>
      cases y with
      | nil => simp at hy
      | cons b y =>
        simp only [List.length_cons, Nat.succ.injEq] at hx hy
        rw [Fin.sum_univ_succ]
        have hhead : sqDiffSum (a :: x) (b :: y) = (a - b) ^ 2 + sqDiffSum x y := by
          simp [sqDiffSum]
        rw [hhead, ih x y hx hy]
        simp

lemma euclid_eq_dist (d : ℕ) (x y : List ℝ)
    (hx : x.length = d) (hy : y.length = d) :
    euclid x y = dist (toPoint d x) (toPoint d y) := by
  rw [EuclideanSpace.dist_eq, euclid, sqDiffSum_eq_sum_fin d x y hx hy]
  congr 1
  refine Finset.sum_congr rfl (fun k _ => ?_)
  rw [Real.dist_eq, sq_abs]
  rfl

lemma getD_mem_of_lt {l : List (List ℝ)} {i : ℕ} (h : i < l.length) :
    l.getD i [] ∈ l := by
  rw [List.getD_eq_getElem?_getD, List.getElem?_eq_getElem h]
  exact List.getElem_mem h

lemma flatMap_congr {β γ : Type} {L : List β} {f g : β → List γ}
    (h : ∀ x ∈ L, f x = g x) : L.flatMap f = L.flatMap g := by
  induction L with
  | nil => rfl
  | cons a L ih =>
    rw [List.flatMap_cons, List.flatMap_cons, h a (by simp),
      ih (fun x hx => h x (by simp [hx]))]

/-! ### Claim theorems -/

/-- C1, counterexample: on the one-edge matrix `[[0,1],[1,0]]` and the
spin assignment `(+1, -1)`, evaluating the produced CostModel and adding
the offset gives `-1`, while the cut weight of the assignment is `1`:
the claimed identity `evaluate(s) + offset = cut_value(s)` fails. -/
theorem evaluate_plus_offset_ne_cut :
    sPair 0 = 1 ∧ sPair 1 = -1 ∧ wPair 0 1 = 1 ∧ wPair 1 0 = 1 ∧
      CostModel.evaluate (maxCutModel wPair 2) sPair + (maxCutModel wPair 2).offset = -1 ∧
      cut_value wPair 2 sPair = 1 ∧
      CostModel.evaluate (maxCutModel wPair 2) sPair + (maxCutModel wPair 2).offset
        ≠ cut_value wPair 2 sPair := by
  have hIco12 : Finset.Ico 1 2 = {1} := rfl
  have hIco22 : Finset.Ico 2 2 = ∅ := Finset.Ico_self 2
  have hcut : cut_value wPair 2 sPair = 1 := by
    unfold cut_value
    rw [Finset.sum_range_succ, Finset.sum_range_succ, Finset.sum_range_zero,
      hIco12, hIco22, Finset.sum_singleton, Finset.sum_empty]
    norm_num [wPair, sPair]
  have heval : CostModel.evaluate (maxCutModel wPair 2) sPair = -1 := by
    norm_num [CostModel.evaluate, isingEnergy, maxCutModel, buildJ, buildH,
      List.range_succ, List.range'_succ, wPair, sPair]
  have hoff : (maxCutModel wPair 2).offset = 0 := rfl
  rw [hcut, heval, hoff]
  norm_num [wPair, sPair]

/-- C1, amended: evaluating the CostModel produced by the Max-Cut Cost
Formulator on a spin assignment `s` and adding the model's offset equals
`sum_{i<j} W[i][j] * s_i * s_j`, which relates to the cut weight by
`evaluate(s) + offset = totalWeight - 2 * cut_value(s)` (not by equality
with the cut weight itself). -/
theorem evaluate_plus_offset_eq (w : ℕ → ℕ → α) (n : ℕ) (s : ℕ → α)
    (hs : IsSpin s n) :
    CostModel.evaluate (maxCutModel w n) s + (maxCutModel w n).offset
      = totalWeight w n - 2 * cut_value w n s := by
  have hoff : (maxCutModel w n).offset = 0 := rfl
  rw [hoff, add_zero, evaluate_maxCutModel, spin_sum_identity w n s hs]

/-- Witness for C1 (amended) at the one-edge matrix and spins `(+1, -1)`. -/
theorem evaluate_plus_offset_eq_witness :
    CostModel.evaluate (maxCutModel wPair 2) sPair + (maxCutModel wPair 2).offset
      = totalWeight wPair 2 - 2 * cut_value wPair 2 sPair := by
  refine evaluate_plus_offset_eq wPair 2 sPair ?_
  intro i hi
  interval_cases i <;> norm_num [sPair]

/-- C2: for a point set whose rows all have dimension `d`, every
in-range entry of the built matrix is the Euclidean (L2) distance of the
two points -- both in the explicit `sqrt`-of-squared-differences form and
as Mathlib's metric on `EuclideanSpace ℝ (Fin d)`. -/
theorem distance_matrix_entry (data : List (List ℝ)) (d i j : ℕ)
    (hi : i < data.length) (hj : j < data.length)
    (hd : ∀ p ∈ data, p.length = d) :
    buildW data i j = euclid (data.getD i []) (data.getD j [])
      ∧ buildW data i j
          = dist (toPoint d (data.getD i [])) (toPoint d (data.getD j [])) := by
  have h1 : buildW data i j = euclid (data.getD i []) (data.getD j []) := by
    rw [buildW_apply, if_pos ⟨hi, hj⟩]
  refine ⟨h1, ?_⟩
  rw [h1, euclid_eq_dist d _ _ (hd _ (getD_mem_of_lt hi)) (hd _ (getD_mem_of_lt hj))]

/-- Witness for C2 at the two one-dimensional points `0` and `3`. -/
theorem distance_matrix_entry_witness :
    buildW [[0], [3]] 0 1 = euclid [(0 : ℝ)] [3]
      ∧ buildW [[0], [3]] 0 1 = dist (toPoint 1 [(0 : ℝ)]) (toPoint 1 [3]) := by
  have h := distance_matrix_entry [[(0 : ℝ)], [3]] 1 0 1 (by norm_num) (by norm_num)
    (by intro p hp; simp at hp; rcases hp with h | h <;> rw [h] <;> rfl)
  simpa using h

/-- C3: the built weight matrix is symmetric, has zero diagonal, and all
its entries are non-negative (indices outside the array read the
`np.zeros` background `0`). -/
theorem weight_matrix_invariants (data : List (List ℝ)) (i j : ℕ) :
    buildW data i j = buildW data j i ∧ buildW data i i = 0
      ∧ 0 ≤ buildW data i j := by
  refine ⟨?_, ?_, ?_⟩
  · rw [buildW_apply, buildW_apply]
    by_cases hi : i < data.length <;> by_cases hj : j < data.length
    · rw [if_pos ⟨hi, hj⟩, if_pos ⟨hj, hi⟩, euclid_comm]
    · simp [hi, hj]
    · simp [hi, hj]
    · simp [hi, hj]
  · rw [buildW_apply]
    by_cases hi : i < data.length
    · rw [if_pos ⟨hi, hi⟩, euclid_self]
    · simp [hi]
  · rw [buildW_apply]
    by_cases hi : i < data.length <;> by_cases hj : j < data.length
    · rw [if_pos ⟨hi, hj⟩]; exact euclid_nonneg _ _
    · simp [hi, hj]
    · simp [hi, hj]
    · simp [hi, hj]

/-- C4, counterexample: the source performs no input validation. On the
matrix `[[5, 2], [3, 0]]` -- which is neither symmetric nor zero on the
diagonal -- the formulator succeeds and produces a CostModel (couplings
from the strict upper triangle only), rather than failing with any
error. -/
theorem formulator_no_validation :
    wBad 0 0 ≠ 0 ∧ wBad 0 1 ≠ wBad 1 0 ∧
      maxCutModel wBad 2 = ⟨[((0, 1), 2)], [(0, 0), (1, 0)], 0⟩ := by
  refine ⟨by norm_num [wBad], by norm_num [wBad], ?_⟩
  norm_num [maxCutModel, buildJ, buildH, List.range_succ, List.range'_succ, wBad]

/-- C4, amended: the formulator never fails: on every input matrix,
symmetric or not, it produces a CostModel whose couplings are exactly
the strictly-upper-triangular in-range entries -- diagonal and
lower-triangular entries are ignored, not rejected. -/
theorem formulator_accepts_malformed (w : ℕ → ℕ → α) (n : ℕ) :
    ∀ e ∈ (maxCutModel w n).J, e.1.1 < e.1.2 ∧ e.1.2 < n ∧ e.2 = w e.1.1 e.1.2 := by
  intro e he
  simp only [maxCutModel, buildJ, List.mem_flatMap, List.mem_map, List.mem_range] at he
  obtain ⟨i, hi, j, hj, rfl⟩ := he
  rw [List.mem_range'] at hj
  obtain ⟨k, hk, rfl⟩ := hj
  refine ⟨?_, ?_, rfl⟩
  · show i < i + 1 + 1 * k
    omega
  · show i + 1 + 1 * k < n
    omega

/-- Witness for C4 (amended) at the malformed matrix `[[5, 2], [3, 0]]`
and its single coupling entry. -/
theorem formulator_accepts_malformed_witness :
    (0 : ℕ) < 1 ∧ (1 : ℕ) < 2 ∧ (2 : ℚ) = wBad 0 1 := by
  have h := formulator_accepts_malformed wBad 2 ((0, 1), (2 : ℚ))
    (by norm_num [maxCutModel, buildJ, List.range_succ, List.range'_succ, wBad])
  simpa using h

/-- C5, counterexample: on the 1×1 weight matrix `[[0]]` (that is,
N = 1 < 2) the formulator succeeds -- it produces the CostModel with no
couplings, the single zero bias `h[0] = 0`, and offset `0` -- rather
than failing with any error. -/
theorem formulator_single_node :
    maxCutModel (fun _ _ => (0 : ℚ)) 1 = ⟨[], [(0, 0)], 0⟩ := by
  norm_num [maxCutModel, buildJ, buildH, List.range_succ, List.range'_succ]

/-- C5, amended: for fewer than two nodes the formulator does not fail:
it returns the degenerate CostModel with no couplings (and, for N = 1,
the single zero bias `h[0] = 0` and offset `0`). -/
theorem formulator_small_n (w : ℕ → ℕ → α) :
    maxCutModel w 1 = ⟨[], [(0, 0)], 0⟩ ∧ maxCutModel w 0 = ⟨[], [], 0⟩ := by
  constructor <;>
    norm_num [maxCutModel, buildJ, buildH, List.range_succ, List.range'_succ]

/-- C6: the Distance Matrix Builder handles the edge cases without
error: the empty point set yields the empty `0 × 0` matrix and a single
point yields the `1 × 1` matrix `[[0]]`. -/
theorem builder_edge_cases :
    buildWMat ([] : List (List ℝ)) = []
      ∧ ∀ p : List ℝ, buildWMat [p] = [[0]] := by
  constructor
  · simp [buildWMat]
  · intro p
    have h00 : buildW [p] 0 0 = 0 := by
      rw [buildW_apply, if_pos (by constructor <;> norm_num), euclid_self]
    simp [buildWMat, h00, List.range_succ]

/-- C7: the cut-value evaluator is invariant under flipping every spin:
`cut_value (-s) = cut_value s`. -/
theorem cut_value_flip (w : ℕ → ℕ → α) (n : ℕ) (s : ℕ → α) :
    cut_value w n (fun i => - s i) = cut_value w n s := by
  unfold cut_value
  refine Finset.sum_congr rfl (fun i _ => Finset.sum_congr rfl (fun j _ => ?_))
  simp only [ne_eq, neg_inj]

/-- C8: both components are deterministic pure functions -- identical
inputs produce identical outputs. -/
theorem builder_formulator_deterministic :
    (∀ data data' : List (List ℝ), data = data' → buildW data = buildW data')
      ∧ ∀ (w w' : ℕ → ℕ → α) (n n' : ℕ), w = w' → n = n' →
          maxCutModel w n = maxCutModel w' n' :=
  ⟨fun _ _ h => by rw [h], fun _ _ _ _ h1 h2 => by rw [h1, h2]⟩

/-- Witness for C8: two invocations on the same concrete inputs. -/
theorem builder_formulator_deterministic_witness :
    buildW [[1]] = buildW [[1]] ∧ maxCutModel wPair 2 = maxCutModel wPair 2 :=
  ⟨(builder_formulator_deterministic (α := ℚ)).1 [[1]] [[1]] rfl,
    (builder_formulator_deterministic (α := ℚ)).2 wPair wPair 2 2 rfl rfl⟩

/-- C9: the formulator reads only the strictly-upper-triangular entries:
matrices agreeing above the diagonal produce the same `J`, `h` and
offset; moreover every bias is `0` and the offset is `0`. -/
theorem formulator_upper_triangular (w w' : ℕ → ℕ → α) (n : ℕ)
    (hww : ∀ i j, i < j → j < n → w i j = w' i j) :
    maxCutModel w n = maxCutModel w' n
      ∧ (∀ e ∈ (maxCutModel w n).h, e.2 = 0)
      ∧ (maxCutModel w n).offset = 0 := by
  refine ⟨?_, ?_, rfl⟩
  · unfold maxCutModel buildJ
    refine congrArg (fun J => CostModel.mk J (buildH n) 0) ?_
    refine flatMap_congr (fun i hi => ?_)
    rw [List.mem_range] at hi
    refine List.map_congr_left (fun j hj => ?_)
    rw [List.mem_range'] at hj
    obtain ⟨k, hk, rfl⟩ := hj
    rw [hww _ _ (by omega) (by omega)]
  · intro e he
    simp only [maxCutModel, buildH, List.mem_map, List.mem_range] at he
    obtain ⟨i, _, rfl⟩ := he
    rfl

/-- Witness for C9 at two matrices agreeing above the diagonal but
differing on it. -/
theorem formulator_upper_triangular_witness :
    maxCutModel wBad 2 = maxCutModel (fun i j => wBad i j + if i = j then 7 else 0) 2
      ∧ (∀ e ∈ (maxCutModel wBad 2).h, e.2 = 0)
      ∧ (maxCutModel wBad 2).offset = 0 := by
  refine formulator_upper_triangular wBad _ 2 (fun i j hij _ => ?_)
  have : ¬ i = j := by omega
  simp [this]

/-- C10: for `±1` spins the cut weight and the Ising energy of the
constructed model are affinely related,
`cut_value(s) = (totalWeight - E(s)) / 2`, so spin assignments of
minimal energy are exactly those of maximal cut weight. -/
theorem ising_energy_cut_relation (w : ℕ → ℕ → α) (n : ℕ) (s : ℕ → α)
    (hs : IsSpin s n) :
    cut_value w n s
        = (totalWeight w n - isingEnergy (maxCutModel w n) s) / 2
      ∧ ∀ t : ℕ → α, IsSpin t n →
          (isingEnergy (maxCutModel w n) s ≤ isingEnergy (maxCutModel w n) t
            ↔ cut_value w n t ≤ cut_value w n s) := by
  have key : ∀ u : ℕ → α, IsSpin u n →
      isingEnergy (maxCutModel w n) u
        = totalWeight w n - 2 * cut_value w n u := by
    intro u hu
    rw [isingEnergy_maxCutModel, spin_sum_identity w n u hu]
  constructor
  · rw [key s hs]; ring
  · intro t ht
    rw [key s hs, key t ht]
    constructor <;> intro h <;> linarith

/-- Witness for C10 at the one-edge matrix and spins `(+1, -1)`
against the constant spin `+1`. -/
theorem ising_energy_cut_relation_witness :
    cut_value wPair 2 sPair
        = (totalWeight wPair 2 - isingEnergy (maxCutModel wPair 2) sPair) / 2
      ∧ (isingEnergy (maxCutModel wPair 2) sPair
            ≤ isingEnergy (maxCutModel wPair 2) (fun _ => 1)
          ↔ cut_value wPair 2 (fun _ => 1) ≤ cut_value wPair 2 sPair) := by
  have h := ising_energy_cut_relation wPair 2 sPair
    (by intro i hi; interval_cases i <;> norm_num [sPair])
  exact ⟨h.1, h.2 (fun _ => 1) (by intro i _; norm_num)⟩

end QMLearn
